import Mathlib

/-!
Verification of the glsdl podcast downloader (src/main.go) against its
natural-language specification.

The development shallowly embeds the program:

* `Process` (main.go, lines 64-104) spawns one goroutine for the cover
  download, then loops over the feed items, spawning one goroutine per item
  and calling `waitGroup.Wait()` each time `counter` reaches the `threads`
  limit `T`, plus a final `Wait` when a partial group remains.  The exact
  sequence of scheduler operations it performs is embedded as
  `processActions N T` (a list of spawn/wait events); the concurrent
  execution is embedded as a small-step state machine (`step`, `runTrace`)
  in which spawned tasks may start and finish at arbitrary points after
  their spawn, and a `Wait` can only complete when every previously spawned
  task (the cover goroutine included, since it uses the same `WaitGroup`)
  has finished.

* `worker` (lines 118-163), `downloadFile` (lines 181-212) and
  `parseTitle` (lines 166-177) are embedded as pure functions over an
  environment record that fixes the outcome of each external effect
  (file existence, network transfer, id3 open/close).  A `worker` panic
  (out-of-bounds index) is embedded as `Option.none`.

All definitions are executable; theorems about concrete runs are settled
by `decide`/`rfl`.
-/

/-- Scheduler-level events.  `spawnCover`/`spawn i`/`waitDone` are the
operations executed by the `Process` goroutine itself (in program order);
`startCover`/`start i`/`finishCover`/`finish i` are performed by the
spawned goroutines at points chosen by the Go runtime. -/
inductive Event where
  | spawnCover : Event
  | spawn : Nat → Event
  | waitDone : Event
  | startCover : Event
  | start : Nat → Event
  | finishCover : Event
  | finish : Nat → Event
deriving DecidableEq, Repr

/-- The scheduler operations performed by the item loop of `Process`
(main.go lines 89-101), starting with `n` items left, `i` the index of the
next item, `c` the current value of the Go variable `counter`:

    counter := 0
    for _, item := range feed.Items {
        counter++
        dl.waitGroup.Add(1)
        go dl.worker(item)
        if counter >= dl.threads { dl.waitGroup.Wait(); counter = 0 }
    }
    if counter > 0 { dl.waitGroup.Wait() }
-/
def loopActions (T : Nat) : Nat → Nat → Nat → List Event
  | 0, _, c => if 0 < c then [Event.waitDone] else []
  | n + 1, i, c =>
      Event.spawn i ::
        (if T ≤ c + 1 then Event.waitDone :: loopActions T n (i + 1) 0
         else loopActions T n (i + 1) (c + 1))

/-- The full sequence of scheduler operations performed by `Process` for a
feed of `N` items and thread limit `T`: the cover goroutine is spawned
first (main.go lines 77-86), then the batched item loop runs. -/
def processActions (N T : Nat) : List Event :=
  Event.spawnCover :: loopActions T N 0 0

/-- Group the item indices spawned by a scheduler event list into batches:
a batch is the list of items spawned since the previous `waitDone`, closed
by the next `waitDone`.  Cover/start/finish events do not contribute. -/
def batchesAux : List Event → List Nat → List (List Nat)
  | [], cur => if cur.isEmpty then [] else [cur]
  | Event.spawn i :: rest, cur => batchesAux rest (cur ++ [i])
  | Event.waitDone :: rest, cur => cur :: batchesAux rest []
  | _ :: rest, cur => batchesAux rest cur

/-- The batches of item indices issued by a scheduler event list. -/
def batches (acts : List Event) : List (List Nat) :=
  batchesAux acts []

/-- Reference chunking of a list into consecutive groups of `T` (the last
group possibly shorter); meaningful for `1 ≤ T`. -/
def chunks (T : Nat) : List Nat → List (List Nat)
  | [] => []
  | x :: xs => (x :: xs.take (T - 1)) :: chunks T (xs.drop (T - 1))
termination_by l => l.length
decreasing_by simp [List.length_drop]; omega

/-- Runtime state of a `Process` execution: the scheduler operations not
yet executed (`pending`, consumed in program order), which tasks have been
spawned (`waitGroup.Add` + `go`), which goroutines have started running,
and which have finished (`waitGroup.Done`). -/
structure SchedState where
  pending : List Event
  spawnedItems : List Nat
  spawnedCover : Bool
  startedItems : List Nat
  startedCover : Bool
  finishedItems : List Nat
  finishedCover : Bool
deriving DecidableEq, Repr

/-- One step of the concurrent execution.  Scheduler events (`spawnCover`,
`spawn`, `waitDone`) must be the next pending operation; a `waitDone` can
only occur once every previously spawned task — the cover goroutine
included, since it uses the same `sync.WaitGroup` — has finished.  A
goroutine may start at any point after its spawn and finish at any point
after its start. -/
def step (s : SchedState) : Event → Option SchedState
  | Event.spawnCover =>
      match s.pending with
      | Event.spawnCover :: rest =>
          some { s with pending := rest, spawnedCover := true }
      | _ => none
  | Event.spawn i =>
      match s.pending with
      | Event.spawn j :: rest =>
          if i = j then
            some { s with pending := rest, spawnedItems := i :: s.spawnedItems }
          else none
      | _ => none
  | Event.waitDone =>
      match s.pending with
      | Event.waitDone :: rest =>
          if (∀ j ∈ s.spawnedItems, j ∈ s.finishedItems) ∧
              (s.spawnedCover = true → s.finishedCover = true) then
            some { s with pending := rest }
          else none
      | _ => none
  | Event.startCover =>
      if s.spawnedCover = true ∧ s.startedCover = false then
        some { s with startedCover := true }
      else none
  | Event.start i =>
      if i ∈ s.spawnedItems ∧ ¬ i ∈ s.startedItems then
        some { s with startedItems := i :: s.startedItems }
      else none
  | Event.finishCover =>
      if s.startedCover = true ∧ s.finishedCover = false then
        some { s with finishedCover := true }
      else none
  | Event.finish i =>
      if i ∈ s.startedItems ∧ ¬ i ∈ s.finishedItems then
        some { s with finishedItems := i :: s.finishedItems }
      else none

/-- Run a whole trace of events; `none` when some event is impossible. -/
def runTrace (s : SchedState) : List Event → Option SchedState
  | [] => some s
  | e :: tr =>
      match step s e with
      | some s' => runTrace s' tr
      | none => none

/-- State at the entry of `Process` for a feed with `N` items and thread
limit `T`. -/
def initState (N T : Nat) : SchedState :=
  { pending := processActions N T
    spawnedItems := []
    spawnedCover := false
    startedItems := []
    startedCover := false
    finishedItems := []
    finishedCover := false }

/-- The scheduler operations still pending after `k` items have been
spawned.  `w = true` means the `Wait` that closes the group ending at item
`k` has already completed. -/
def pendingOf (N T k : Nat) (w : Bool) : List Event :=
  if w then loopActions T (N - k) k 0
  else if T ∣ k ∧ 0 < k then Event.waitDone :: loopActions T (N - k) k 0
  else loopActions T (N - k) k (k % T)

/-- The batch-barrier property: every started item is preceded (in batch
order) only by finished items. -/
def barrierOK (T : Nat) (s : SchedState) : Prop :=
  ∀ j ∈ s.startedItems, ∀ m, m < j → m / T < j / T → m ∈ s.finishedItems

instance (T : Nat) (s : SchedState) : Decidable (barrierOK T s) := by
  unfold barrierOK; infer_instance

/-- Number of item goroutines currently in flight (started, not yet
finished); the cover goroutine is not counted. -/
def inFlight (s : SchedState) : Nat :=
  (s.startedItems.filter (fun j => decide (¬ j ∈ s.finishedItems))).length

/-- Reachability invariant of the `Process` state machine: `k` items
spawned so far, `w` records whether the group-closing `Wait` has been
consumed. -/
structure InvAt (N T k : Nat) (w : Bool) (s : SchedState) : Prop where
  kLe : k ≤ N
  spawnedIff : ∀ j, j ∈ s.spawnedItems ↔ j < k
  startedSub : ∀ j ∈ s.startedItems, j ∈ s.spawnedItems
  finishedSub : ∀ j ∈ s.finishedItems, j ∈ s.startedItems
  startedNodup : s.startedItems.Nodup
  coverShape : s.spawnedCover = false → k = 0 ∧ w = false
  pendingShape : s.pending =
    (if s.spawnedCover = true then ([] : List Event) else [Event.spawnCover]) ++
      pendingOf N T k w
  wDiv : w = true → (T ∣ k ∧ 0 < k) ∨ k = N
  wFin : w = true → ∀ m, m < k → m ∈ s.finishedItems
  wCover : w = true → s.finishedCover = true
  barrier : ∀ j, j < k → ∀ m, m / T < j / T → m ∈ s.finishedItems
  topbatch : ∀ j ∈ s.startedItems, ¬ j ∈ s.finishedItems → (k - 1) / T ≤ j / T

/-- Feed enclosure as consumed by the worker: download URL and the
content-length string whose emptiness gates processing. -/
structure Enclosure where
  url : String
  length : String
deriving DecidableEq, Repr

/-- Fields of a `gofeed.Item` consumed by the worker. -/
structure Item where
  title : String
  published : String
  authorName : String
  enclosures : List Enclosure
deriving DecidableEq, Repr

/-- The part of a Go `time.Time` value the worker consumes: `Year()`. -/
structure GoTime where
  year : Int
deriving DecidableEq, Repr

/-- The zero `time.Time` value, which `time.Parse` returns alongside an
error: January 1 of year 1, so `Year()` is `1`. -/
def GoTime.zero : GoTime := ⟨1⟩

/-- Outcomes of the external effects performed by one `downloadFile` call:
`os.Create`, `http.Get`, `io.Copy`, and the two deferred `Close` calls. -/
structure DlEnv where
  createOk : Bool
  getOk : Bool
  copyOk : Bool
  fileCloseOk : Bool
  bodyCloseOk : Bool
deriving DecidableEq, Repr

/-- Error values arising inside `downloadFile`. -/
inductive DlError where
  | createFailed : DlError
  | getFailed : DlError
  | copyFailed : DlError
  | fileCloseFailed : DlError
  | bodyCloseFailed : DlError
deriving DecidableEq, Repr

/-- Observable outcome of one `downloadFile` call: the returned error (if
any), the increment applied to the `statDl` counter, and the errors passed
to `log.Println` by the deferred `Close` handlers. -/
structure DlResult where
  err : Option DlError
  statDlInc : Nat
  logged : List DlError
deriving DecidableEq, Repr

/-- Embedding of `downloadFile` (main.go lines 181-212): create the
destination file, issue the request, copy the body; return the first
error.  Both deferred `Close` calls log their error and never return it;
`statDl` is incremented exactly once, after a successful copy. -/
def downloadFile (env : DlEnv) : DlResult :=
  if env.createOk = false then
    { err := some DlError.createFailed, statDlInc := 0, logged := [] }
  else
    let fileCloseLog : List DlError :=
      if env.fileCloseOk = false then [DlError.fileCloseFailed] else []
    if env.getOk = false then
      { err := some DlError.getFailed, statDlInc := 0, logged := fileCloseLog }
    else
      let bodyCloseLog : List DlError :=
        if env.bodyCloseOk = false then [DlError.bodyCloseFailed] else []
      if env.copyOk = false then
        { err := some DlError.copyFailed, statDlInc := 0,
          logged := bodyCloseLog ++ fileCloseLog }
      else
        { err := none, statDlInc := 1, logged := bodyCloseLog ++ fileCloseLog }

/-- Log lines emitted by the worker body itself (`log.Println` calls at
main.go lines 136 and 145). -/
inductive WorkerLog where
  | downloadErr : DlError → WorkerLog
  | tagOpenErr : WorkerLog
deriving DecidableEq, Repr

/-- Outcomes of the external effects of one worker invocation: whether the
destination file already exists (`os.Stat`), the download effects, whether
`id3.Open` succeeds, whether the deferred `tag.Close()` succeeds, and the
result of `time.Parse(time.RFC1123Z, item.Published)` (`none` embeds a
parse error, in which case the Go variable holds the zero time). -/
structure WorkerEnv where
  fileExists : Bool
  dl : DlEnv
  tagOpenOk : Bool
  tagCloseOk : Bool
  publishedTime : Option GoTime
deriving DecidableEq, Repr

/-- The three counters of the `Glsdl` struct (here: deltas or totals). -/
structure Counters where
  statDl : Nat
  statProcess : Nat
  statFail : Nat
deriving DecidableEq, Repr

/-- Observable outcome of one worker invocation. -/
structure WorkerResult where
  counters : Counters
  downloadCalled : Bool
  tagOpenCalled : Bool
  tagsWritten : Bool
  taggedTitle : Option String
  taggedYear : Option String
  logs : List WorkerLog
deriving DecidableEq, Repr

/-- Membership test for the character class of the Go regexp fragment
`[Выпуск|Episode]`: a bracket expression, so it matches ONE character
among the listed ones (the Cyrillic letters of "Выпуск", the pipe, and the
Latin letters of "Episode"). -/
def parseClassChar (c : Char) : Bool :=
  c == 'В' || c == 'ы' || c == 'п' || c == 'у' || c == 'с' || c == 'к' ||
  c == '|' || c == 'E' || c == 'p' || c == 'i' || c == 's' || c == 'o' ||
  c == 'd' || c == 'e'

/-- Go regexp `\s`, which is the class `[\t\n\f\r ]`. -/
def goSpace (c : Char) : Bool :=
  c == ' ' || c == '\t' || c == '\n' || c == Char.ofNat 12 || c == '\r'

/-- Go regexp POSIX class `[[:alnum:]]`, ASCII-only: `[0-9A-Za-z]`. -/
def alnumAscii (c : Char) : Bool :=
  (48 ≤ c.toNat && c.toNat ≤ 57) || (65 ≤ c.toNat && c.toNat ≤ 90) ||
  (97 ≤ c.toNat && c.toNat ≤ 122)

/-- Embedding of `parsePattern.FindStringSubmatch` for the pattern
compiled in `NewGlsdl` (main.go line 49):

    ^[Выпуск|Episode]+\s+([[:alnum:]]+)\.*\s*(.*?)$

specialized to Go's leftmost-first semantics.  None of the class
characters is whitespace and no whitespace character is alphanumeric, so
backtracking never changes the greedy runs: `[...]+`, `\s+` and
`([[:alnum:]]+)` take their maximal runs (each must be non-empty), `\.*`
and `\s*` then take maximal runs, and the lazy `(.*?)` anchored by `$` is
forced to take the whole remainder.  `.` does not match a newline and `$`
(without the `m` flag) matches only at end of text, so a newline left in
the remainder makes the whole match fail — no shorter choice of any
earlier run can remove it. -/
def findStringSubmatch (l : List Char) : Option (List Char × List Char) :=
  let a := l.takeWhile parseClassChar
  let r1 := l.dropWhile parseClassChar
  if a.isEmpty then none
  else
    let w := r1.takeWhile goSpace
    let r2 := r1.dropWhile goSpace
    if w.isEmpty then none
    else
      let g1 := r2.takeWhile alnumAscii
      let r3 := r2.dropWhile alnumAscii
      if g1.isEmpty then none
      else
        let r4 := r3.dropWhile (fun c => c == '.')
        let r5 := r4.dropWhile goSpace
        if r5.contains '\n' then none
        else some (g1, r5)

/-- Embedding of `parseTitle` (main.go lines 166-177): on no match return
an empty episode number and the raw title unchanged; on a match, an empty
title remainder falls back to the author name, and path separators (`/` on
this platform) in the resulting title are replaced by underscores. -/
def parseTitle (title authorName : String) : String × String :=
  match findStringSubmatch title.data with
  | none => ("", title)
  | some (g1, g2) =>
      let t := if g2.isEmpty then authorName.data else g2
      (String.mk g1, String.mk (t.map (fun c => if c == '/' then '_' else c)))

/-- Embedding of `worker` (main.go lines 118-163).  `none` embeds the
panic of the unconditional `item.Enclosures[0]` index on an empty
enclosure list.  The skip branch (empty length field) touches no counter;
a download error or an `id3.Open` error is logged and counted as a
failure; otherwise the tags are written and the item is counted as
processed.  The deferred `_ = tag.Close()` discards its error, so
`env.tagCloseOk` has no effect on the result; the ignored error of
`time.Parse` leaves the zero time, whose year is 1. -/
def worker (item : Item) (env : WorkerEnv) : Option WorkerResult :=
  match item.enclosures with
  | [] => none
  | enc0 :: _ =>
      if enc0.length.length = 0 then
        some { counters := ⟨0, 0, 0⟩, downloadCalled := false,
               tagOpenCalled := false, tagsWritten := false,
               taggedTitle := none, taggedYear := none, logs := [] }
      else
        let pt := parseTitle item.title item.authorName
        let finalTitle := "[" ++ pt.1 ++ "] " ++ pt.2
        let tagPhase := fun (dlInc : Nat) (dldC : Bool) =>
          if env.tagOpenOk = false then
            some { counters := ⟨dlInc, 0, 1⟩, downloadCalled := dldC,
                   tagOpenCalled := true, tagsWritten := false,
                   taggedTitle := none, taggedYear := none,
                   logs := [WorkerLog.tagOpenErr] }
          else
            let published := env.publishedTime.getD GoTime.zero
            some { counters := ⟨dlInc, 1, 0⟩, downloadCalled := dldC,
                   tagOpenCalled := true, tagsWritten := true,
                   taggedTitle := some finalTitle,
                   taggedYear := some (toString published.year),
                   logs := [] }
        if env.fileExists = false then
          match (downloadFile env.dl).err with
          | some e =>
              some { counters := ⟨(downloadFile env.dl).statDlInc, 0, 1⟩,
                     downloadCalled := true, tagOpenCalled := false,
                     tagsWritten := false, taggedTitle := none,
                     taggedYear := none, logs := [WorkerLog.downloadErr e] }
          | none => tagPhase (downloadFile env.dl).statDlInc true
        else
          tagPhase 0 false

/-- The cover goroutine (main.go lines 77-86): download to `cover.png`,
log a download error, and unconditionally increment `statProcess`. -/
def coverTask (env : DlEnv) : Counters :=
  { statDl := (downloadFile env).statDlInc, statProcess := 1, statFail := 0 }

/-- Pointwise sum of counters (each goroutine's increments commute). -/
def addCounters (a b : Counters) : Counters :=
  ⟨a.statDl + b.statDl, a.statProcess + b.statProcess,
    a.statFail + b.statFail⟩

/-- Total counters after a `Process` run over a feed: the cover task plus
one worker per item; `none` if any worker panics. -/
def runCounters (cover : DlEnv) : List (Item × WorkerEnv) → Option Counters
  | [] => some (coverTask cover)
  | p :: rest =>
      match worker p.1 p.2, runCounters cover rest with
      | some r, some c => some (addCounters r.counters c)
      | _, _ => none

/-- An item skipped by the worker: its first enclosure has an empty
length field. -/
def isSkipped (p : Item × WorkerEnv) : Bool :=
  match p.1.enclosures with
  | [] => false
  | enc0 :: _ => enc0.length.length == 0

/-- All-success download environment (fixture). -/
def dlEnvOk : DlEnv :=
  { createOk := true, getOk := true, copyOk := true,
    fileCloseOk := true, bodyCloseOk := true }

/-- Download environment whose network request fails (fixture). -/
def dlEnvGetFail : DlEnv :=
  { createOk := true, getOk := false, copyOk := true,
    fileCloseOk := true, bodyCloseOk := true }

/-- A regular feed item with one non-empty-length enclosure (fixture). -/
def itemCex : Item :=
  { title := "Episode 1. A", published := "bad-date", authorName := "Auth",
    enclosures := [{ url := "u", length := "1" }] }

/-- A feed item with an empty enclosure list (fixture). -/
def itemNoEnc : Item :=
  { title := "t", published := "p", authorName := "a", enclosures := [] }

/-- A feed item whose single enclosure has an empty length field
(fixture). -/
def itemEmptyLen : Item :=
  { title := "Episode 2. B", published := "bad-date", authorName := "Auth",
    enclosures := [{ url := "u", length := "" }] }

/-- Worker environment: file absent, download succeeds, `id3.Open` fails
(fixture). -/
def wenvTagFail : WorkerEnv :=
  { fileExists := false, dl := dlEnvOk, tagOpenOk := false,
    tagCloseOk := true, publishedTime := none }

/-- Worker environment: destination file already present, tagging succeeds
(fixture). -/
def wenvExists : WorkerEnv :=
  { fileExists := true, dl := dlEnvOk, tagOpenOk := true,
    tagCloseOk := true, publishedTime := none }

/-- Worker environment: file present, `id3.Open` succeeds, but the
deferred `tag.Close()` fails (fixture). -/
def wenvCloseFail : WorkerEnv :=
  { fileExists := true, dl := dlEnvOk, tagOpenOk := true,
    tagCloseOk := false, publishedTime := some { year := 2016 } }

theorem chunks_nil (T : Nat) : chunks T [] = [] := by
  simp [chunks]

theorem chunks_cons (T : Nat) (x : Nat) (xs : List Nat) :
    chunks T (x :: xs) = (x :: xs.take (T - 1)) :: chunks T (xs.drop (T - 1)) := by
  simp [chunks]

theorem chunks_eq_nil_iff (T : Nat) (l : List Nat) : chunks T l = [] ↔ l = [] := by
  cases l with
  | nil => simp [chunks_nil]
  | cons x xs => simp [chunks_cons]

/-- A full-length first group splits off as one chunk. -/
theorem chunks_append (T : Nat) (hT : 1 ≤ T) (l rest : List Nat)
    (hl : l.length = T) : chunks T (l ++ rest) = l :: chunks T rest := by
  cases l with
  | nil => simp at hl; omega
  | cons y ys =>
      have hys : ys.length = T - 1 := by simp at hl; omega
      rw [List.cons_append, chunks_cons, List.take_left' hys, List.drop_left' hys]

/-- The batches produced by the item loop are exactly the `T`-chunks of the
remaining item indices, prefixed by the partially filled current group. -/
theorem batchesAux_loopActions (T : Nat) (hT : 1 ≤ T) :
    ∀ (n i : Nat) (cur : List Nat), cur.length < T →
      batchesAux (loopActions T n i cur.length) cur =
        chunks T (cur ++ List.range' i n) := by
  intro n
  induction n with
  | zero =>
      intro i cur hcur
      cases cur with
      | nil => simp [loopActions, batchesAux, chunks_nil]
      | cons y ys =>
          have hys : ys.length ≤ T - 1 := by simp at hcur; omega
          have e1 : loopActions T 0 i (y :: ys).length = [Event.waitDone] := by
            simp [loopActions]
          rw [e1]
          have e2 : batchesAux [Event.waitDone] (y :: ys) = [y :: ys] := rfl
          have e3 : List.range' i 0 = [] := rfl
          rw [e2, e3, List.append_nil, chunks_cons, List.take_of_length_le hys,
            List.drop_eq_nil_of_le hys, chunks_nil]
  | succ n ih =>
      intro i cur hcur
      rw [List.range'_succ, show cur ++ i :: List.range' (i + 1) n
        = (cur ++ [i]) ++ List.range' (i + 1) n by simp]
      by_cases hfull : T ≤ cur.length + 1
      · have hlen : (cur ++ [i]).length = T := by simp; omega
        rw [loopActions]
        simp only [if_pos hfull]
        show batchesAux (Event.waitDone :: loopActions T n (i + 1) 0) (cur ++ [i])
          = chunks T ((cur ++ [i]) ++ List.range' (i + 1) n)
        rw [chunks_append T hT _ _ hlen]
        show (cur ++ [i]) :: batchesAux (loopActions T n (i + 1) 0) []
          = (cur ++ [i]) :: chunks T (List.range' (i + 1) n)
        have := ih (i + 1) [] (by exact hT)
        simpa using this
      · have hlen : (cur ++ [i]).length = cur.length + 1 := by simp
        rw [loopActions]
        simp only [if_neg hfull]
        show batchesAux (loopActions T n (i + 1) (cur.length + 1)) (cur ++ [i])
          = chunks T ((cur ++ [i]) ++ List.range' (i + 1) n)
        rw [← hlen]
        exact ih (i + 1) (cur ++ [i]) (by simp at hlen ⊢; omega)

/-- The batches of a whole `Process` run are the `T`-chunks of
`[0, ..., N-1]`. -/
theorem batches_processActions (N T : Nat) (hT : 1 ≤ T) :
    batches (processActions N T) = chunks T (List.range N) := by
  show batchesAux (Event.spawnCover :: loopActions T N 0 0) [] = _
  show batchesAux (loopActions T N 0 0) [] = _
  have := batchesAux_loopActions T hT N 0 [] (by exact hT)
  simpa [List.range_eq_range'] using this

theorem chunks_flatten (T : Nat) (hT : 1 ≤ T) :
    ∀ (fuel : Nat) (l : List Nat), l.length ≤ fuel → (chunks T l).flatten = l := by
  intro fuel
  induction fuel with
  | zero =>
      intro l hl
      have : l = [] := List.eq_nil_of_length_eq_zero (by omega)
      subst this; simp [chunks_nil]
  | succ fuel ih =>
      intro l hl
      cases l with
      | nil => simp [chunks_nil]
      | cons x xs =>
          rw [chunks_cons]
          simp only [List.flatten_cons]
          rw [ih (xs.drop (T - 1)) (by simp [List.length_drop] at hl ⊢; omega)]
          simp [List.take_append_drop]

theorem chunks_length (T : Nat) (hT : 1 ≤ T) :
    ∀ (fuel : Nat) (l : List Nat), l.length ≤ fuel →
      (chunks T l).length = (l.length + (T - 1)) / T := by
  intro fuel
  induction fuel with
  | zero =>
      intro l hl
      have : l = [] := List.eq_nil_of_length_eq_zero (by omega)
      subst this
      simp [chunks_nil, Nat.div_eq_of_lt (by omega : T - 1 < T)]
  | succ fuel ih =>
      intro l hl
      cases l with
      | nil => simp [chunks_nil, Nat.div_eq_of_lt (by omega : T - 1 < T)]
      | cons x xs =>
          rw [chunks_cons]
          simp only [List.length_cons]
          rw [ih (xs.drop (T - 1)) (by simp [List.length_drop] at hl ⊢; omega)]
          rw [List.length_drop]
          have hxs : xs.length + 1 + (T - 1) = xs.length + T := by omega
          rw [hxs, Nat.add_div_right _ (by omega : 0 < T)]
          by_cases hge : T - 1 ≤ xs.length
          · rw [Nat.sub_add_cancel hge]
          · have h1 : xs.length - (T - 1) = 0 := by omega
            rw [h1]
            rw [Nat.div_eq_of_lt (by omega : 0 + (T - 1) < T),
              Nat.div_eq_of_lt (by omega : xs.length < T)]

theorem chunks_dropLast_length (T : Nat) (hT : 1 ≤ T) :
    ∀ (fuel : Nat) (l : List Nat), l.length ≤ fuel →
      ∀ b ∈ (chunks T l).dropLast, b.length = T := by
  intro fuel
  induction fuel with
  | zero =>
      intro l hl
      have : l = [] := List.eq_nil_of_length_eq_zero (by omega)
      subst this; simp [chunks_nil]
  | succ fuel ih =>
      intro l hl
      cases l with
      | nil => simp [chunks_nil]
      | cons x xs =>
          rw [chunks_cons]
          by_cases hd : xs.drop (T - 1) = []
          · rw [hd, chunks_nil]
            simp
          · have hne : chunks T (xs.drop (T - 1)) ≠ [] := by
              rw [ne_eq, chunks_eq_nil_iff]; exact hd
            rw [List.dropLast_cons_of_ne_nil hne]
            intro b hb
            rcases List.mem_cons.mp hb with hb1 | hb2
            · subst hb1
              have hlen : T - 1 ≤ xs.length := by
                by_contra hlt
                exact hd (List.drop_eq_nil_of_le (by omega))
              simp [List.length_take]
              omega
            · exact ih (xs.drop (T - 1))
                (by simp [List.length_drop] at hl ⊢; omega) b hb2

theorem chunks_getLast_length (T : Nat) (hT : 1 ≤ T) :
    ∀ (fuel : Nat) (l : List Nat), l.length ≤ fuel →
      ∀ b, (chunks T l).getLast? = some b →
        b.length = if l.length % T = 0 then T else l.length % T := by
  intro fuel
  induction fuel with
  | zero =>
      intro l hl
      have : l = [] := List.eq_nil_of_length_eq_zero (by omega)
      subst this; simp [chunks_nil]
  | succ fuel ih =>
      intro l hl
      cases l with
      | nil => simp [chunks_nil]
      | cons x xs =>
          rw [chunks_cons]
          by_cases hd : xs.drop (T - 1) = []
          · rw [hd, chunks_nil]
            intro b hb
            simp [List.getLast?] at hb
            subst hb
            have hlen : xs.length ≤ T - 1 := by
              by_contra hlt
              have : (xs.drop (T - 1)).length = 0 := by rw [hd]; rfl
              rw [List.length_drop] at this
              omega
            simp [List.take_of_length_le hlen]
            rcases Nat.lt_or_ge (xs.length + 1) T with hlt | hge
            · rw [if_neg (by rw [Nat.mod_eq_of_lt hlt]; omega),
                Nat.mod_eq_of_lt hlt]
            · have heq : xs.length + 1 = T := by omega
              rw [heq, if_pos (Nat.mod_self T)]
          · obtain ⟨c, cs, hcs⟩ : ∃ c cs, chunks T (xs.drop (T - 1)) = c :: cs := by
              rcases hch : chunks T (xs.drop (T - 1)) with _ | ⟨c, cs⟩
              · exact absurd ((chunks_eq_nil_iff T _).mp hch) hd
              · exact ⟨c, cs, rfl⟩
            rw [hcs, List.getLast?_cons_cons]
            intro b hb
            rw [← hcs] at hb
            have hlen : T - 1 ≤ xs.length := by
              by_contra hlt
              exact hd (List.drop_eq_nil_of_le (by omega))
            have := ih (xs.drop (T - 1))
              (by simp [List.length_drop] at hl ⊢; omega) b hb
            rw [List.length_drop] at this
            have hge : T ≤ xs.length + 1 := by omega
            have hmod : (xs.length - (T - 1)) % T = (xs.length + 1) % T := by
              have h1 : xs.length - (T - 1) = xs.length + 1 - T := by omega
              rw [h1]
              have h2 : xs.length + 1 = (xs.length + 1 - T) + T := by omega
              calc (xs.length + 1 - T) % T
                  = ((xs.length + 1 - T) + T) % T := (Nat.add_mod_right _ _).symm
                _ = (xs.length + 1) % T := by rw [← h2]
            rw [hmod] at this
            simpa using this

/-- C1: For every concurrency limit `T ≥ 1` and item count `N ≥ 0`, the
item loop of `Process` partitions the `N` feed items into exactly
`⌈N/T⌉ = (N + T - 1) / T` sequential batches whose concatenation is
`[0, ..., N-1]`; every batch except possibly the last has exactly `T`
items, and the last batch (when `N > 0`) has `N % T` items, or `T` when
`N % T = 0`. -/
theorem c1_process_batching (N T : Nat) (hT : 1 ≤ T) :
    (batches (processActions N T)).flatten = List.range N ∧
    (batches (processActions N T)).length = (N + (T - 1)) / T ∧
    (∀ b ∈ (batches (processActions N T)).dropLast, b.length = T) ∧
    (∀ b, (batches (processActions N T)).getLast? = some b →
      b.length = if N % T = 0 then T else N % T) := by
  rw [batches_processActions N T hT]
  refine ⟨?_, ?_, ?_, ?_⟩
  · rw [chunks_flatten T hT (List.range N).length _ (by omega)]
  · rw [chunks_length T hT (List.range N).length _ (by omega)]
    simp
  · intro b hb
    exact chunks_dropLast_length T hT (List.range N).length _ (by omega) b hb
  · intro b hb
    have := chunks_getLast_length T hT (List.range N).length _ (by omega) b hb
    simpa using this

theorem loopActions_eq_nil_iff (T n i c : Nat) :
    loopActions T n i c = [] ↔ n = 0 ∧ c = 0 := by
  cases n with
  | zero =>
      by_cases hc : 0 < c <;> simp [loopActions, hc] <;> omega
  | succ n => simp [loopActions]

theorem spawnCover_not_mem_loopActions (T : Nat) :
    ∀ n i c, ¬ Event.spawnCover ∈ loopActions T n i c := by
  intro n
  induction n with
  | zero =>
      intro i c
      by_cases hc : 0 < c <;> simp [loopActions, hc]
  | succ n ih =>
      intro i c
      by_cases hfull : T ≤ c + 1 <;>
        simp [loopActions, hfull, ih]

theorem spawnCover_not_mem_pendingOf (N T k : Nat) (w : Bool) :
    ¬ Event.spawnCover ∈ pendingOf N T k w := by
  unfold pendingOf
  by_cases hw : w
  · simp [hw, spawnCover_not_mem_loopActions]
  · by_cases hd : T ∣ k ∧ 0 < k <;>
      simp [hw, hd, spawnCover_not_mem_loopActions]

theorem div_lt_of_div_lt {m j T : Nat} (h : m / T < j / T) : m < j := by
  by_contra hge
  have hle : j / T ≤ m / T := Nat.div_le_div_right (by omega)
  omega

theorem div_pred_of_not_dvd {k T : Nat} (hk : 0 < k) (h : ¬ T ∣ k) :
    k / T = (k - 1) / T := by
  have hs : k = (k - 1) + 1 := by omega
  rw [hs, Nat.succ_div, ← hs, if_neg h, Nat.add_zero]

theorem div_pred_of_dvd {k T : Nat} (hk : 0 < k) (h : T ∣ k) :
    k / T = (k - 1) / T + 1 := by
  have hs : k = (k - 1) + 1 := by omega
  rw [hs, Nat.succ_div, ← hs, if_pos h]

theorem mod_succ_of_lt {k T : Nat} (h : k % T + 1 < T) : (k + 1) % T = k % T + 1 := by
  rw [Nat.add_mod, Nat.mod_eq_of_lt (show (1 : Nat) < T by omega)]
  exact Nat.mod_eq_of_lt h

theorem mod_succ_of_full {k T : Nat} (hT : 1 ≤ T) (h : T ≤ k % T + 1) :
    (k + 1) % T = 0 := by
  rcases Nat.lt_or_ge 1 T with h1 | h1
  · have hlt : k % T < T := Nat.mod_lt _ (by omega)
    have heq : k % T + 1 = T := by omega
    rw [Nat.add_mod, Nat.mod_eq_of_lt h1, heq, Nat.mod_self]
  · have hT1 : T = 1 := by omega
    subst hT1
    simp [Nat.mod_one]

theorem pendingOf_spawn_true (N T k : Nat) (hT : 1 ≤ T) (hkN : k < N) (hdk : T ∣ k) :
    pendingOf N T k true = Event.spawn k :: pendingOf N T (k + 1) false := by
  have hm : N - k = (N - (k + 1)) + 1 := by omega
  have e1 : pendingOf N T k true = loopActions T (N - k) k 0 := by simp [pendingOf]
  rw [e1, hm]
  simp only [loopActions]
  congr 1
  by_cases hT1 : T = 1
  · subst hT1
    have hd1 : (1 : Nat) ∣ k + 1 ∧ 0 < k + 1 := ⟨Nat.one_dvd _, by omega⟩
    simp [pendingOf, hd1]
  · have hT2 : 2 ≤ T := by omega
    have hndvd : ¬ T ∣ k + 1 := by
      intro hd
      have h1 : T ∣ 1 := by
        have := Nat.dvd_sub' hd hdk
        simpa using this
      exact hT1 (Nat.dvd_one.mp h1)
    have hmod : (k + 1) % T = 1 := by
      obtain ⟨q, rfl⟩ := hdk
      rw [Nat.add_mod, Nat.mul_mod_right, Nat.mod_eq_of_lt (by omega : (1 : Nat) < T)]
      exact Nat.mod_eq_of_lt (by omega)
    rw [if_neg (by omega : ¬ T ≤ 0 + 1)]
    simp [pendingOf, hndvd, hmod]

theorem pendingOf_spawn_false (N T k : Nat) (hT : 1 ≤ T) (hkN : k < N)
    (hnd : ¬ (T ∣ k ∧ 0 < k)) :
    pendingOf N T k false = Event.spawn k :: pendingOf N T (k + 1) false := by
  have hm : N - k = (N - (k + 1)) + 1 := by omega
  have e1 : pendingOf N T k false = loopActions T (N - k) k (k % T) := by
    simp [pendingOf, hnd]
  rw [e1, hm]
  simp only [loopActions]
  congr 1
  by_cases hfull : T ≤ k % T + 1
  · have h0 : (k + 1) % T = 0 := mod_succ_of_full hT hfull
    have hd : T ∣ k + 1 ∧ 0 < k + 1 := ⟨Nat.dvd_of_mod_eq_zero h0, by omega⟩
    simp [pendingOf, hd, if_pos hfull]
  · have h1 : (k + 1) % T = k % T + 1 := mod_succ_of_lt (by omega)
    have hndvd : ¬ T ∣ k + 1 := by
      intro hd
      have h0 : (k + 1) % T = 0 := Nat.mod_eq_zero_of_dvd hd
      omega
    simp [pendingOf, hndvd, h1, if_neg hfull]

/-- Classification of the pending scheduler operations: either the run is
over (`k = N`, nothing pending), or the next operation spawns item `k`,
or the next operation is a `Wait`. -/
theorem pendingOf_shape (N T k : Nat) (hT : 1 ≤ T) (w : Bool) (hkN : k ≤ N)
    (hwd : w = true → (T ∣ k ∧ 0 < k) ∨ k = N) :
    (pendingOf N T k w = [] ∧ k = N) ∨
    (k < N ∧ ((w = true ∧ T ∣ k) ∨ (w = false ∧ ¬ (T ∣ k ∧ 0 < k))) ∧
      pendingOf N T k w = Event.spawn k :: pendingOf N T (k + 1) false) ∨
    (w = false ∧ ((T ∣ k ∧ 0 < k) ∨ k = N) ∧
      pendingOf N T k w = Event.waitDone :: pendingOf N T k true) := by
  cases w with
  | true =>
      rcases Nat.lt_or_ge k N with hlt | hge
      · rcases hwd rfl with ⟨hdvd, hpos⟩ | hkN'
        · exact Or.inr (Or.inl ⟨hlt, Or.inl ⟨rfl, hdvd⟩,
            pendingOf_spawn_true N T k hT hlt hdvd⟩)
        · omega
      · have hkNeq : k = N := by omega
        subst hkNeq
        refine Or.inl ⟨?_, rfl⟩
        simp [pendingOf, Nat.sub_self, loopActions]
  | false =>
      by_cases hd : T ∣ k ∧ 0 < k
      · refine Or.inr (Or.inr ⟨rfl, Or.inl hd, ?_⟩)
        simp [pendingOf, hd]
      · rcases Nat.lt_or_ge k N with hlt | hge
        · exact Or.inr (Or.inl ⟨hlt, Or.inr ⟨rfl, hd⟩,
            pendingOf_spawn_false N T k hT hlt hd⟩)
        · have hkNeq : k = N := by omega
          subst hkNeq
          by_cases hmod : k % T = 0
          · have hk0 : k = 0 := by
              by_contra hne
              exact hd ⟨Nat.dvd_of_mod_eq_zero hmod, by omega⟩
            refine Or.inl ⟨?_, rfl⟩
            subst hk0
            simp [pendingOf, loopActions]
          · refine Or.inr (Or.inr ⟨rfl, Or.inr rfl, ?_⟩)
            have e1 : pendingOf k T k false = loopActions T 0 k (k % T) := by
              simp [pendingOf, hd, Nat.sub_self]
            have e2 : pendingOf k T k true = loopActions T 0 k 0 := by
              simp [pendingOf, Nat.sub_self]
            rw [e1, e2]
            simp [loopActions, Nat.pos_of_ne_zero hmod]

/-- Every step of the state machine preserves the reachability
invariant. -/
theorem step_inv {N T k : Nat} {w : Bool} {s s' : SchedState} {e : Event}
    (hT : 1 ≤ T) (hinv : InvAt N T k w s) (hstep : step s e = some s') :
    ∃ k' w', InvAt N T k' w' s' := by
  obtain ⟨kLe, spawnedIff, startedSub, finishedSub, startedNodup, coverShape,
    pendingShape, wDiv, wFin, wCover, barrier, topbatch⟩ := hinv
  cases e with
  | spawnCover =>
      by_cases hc : s.spawnedCover = true
      · rw [if_pos hc, List.nil_append] at pendingShape
        rcases pendingOf_shape N T k hT w kLe wDiv with
          ⟨hnil, -⟩ | ⟨-, -, hsp⟩ | ⟨-, -, hwd⟩
        · simp [step, pendingShape, hnil] at hstep
        · simp [step, pendingShape, hsp] at hstep
        · simp [step, pendingShape, hwd] at hstep
      · obtain ⟨hk0, hw0⟩ := coverShape (by simpa using hc)
        subst hk0; subst hw0
        rw [if_neg hc] at pendingShape
        simp only [step, pendingShape, List.cons_append, List.nil_append] at hstep
        obtain rfl := Option.some.inj hstep
        refine ⟨0, false, Nat.zero_le N, spawnedIff, startedSub, finishedSub,
          startedNodup, ?_, ?_, ?_, ?_, ?_, barrier, topbatch⟩
        · intro h; simp at h
        · simp
        · intro h; simp at h
        · intro h; simp at h
        · intro h; simp at h
  | spawn i =>
      by_cases hc : s.spawnedCover = true
      · rw [if_pos hc, List.nil_append] at pendingShape
        rcases pendingOf_shape N T k hT w kLe wDiv with
          ⟨hnil, -⟩ | ⟨hlt, hinfo, hsp⟩ | ⟨-, -, hwd⟩
        · simp [step, pendingShape, hnil] at hstep
        · simp only [step, pendingShape, hsp] at hstep
          by_cases hik : i = k
          · subst hik
            rw [if_pos rfl] at hstep
            obtain rfl := Option.some.inj hstep
            refine ⟨i + 1, false, by omega, ?_, ?_, finishedSub, startedNodup,
              ?_, ?_, ?_, ?_, ?_, ?_, ?_⟩
            · intro j
              show j ∈ i :: s.spawnedItems ↔ j < i + 1
              rw [List.mem_cons, spawnedIff j]
              omega
            · intro j hj
              exact List.mem_cons_of_mem _ (startedSub j hj)
            · intro h; rw [hc] at h; cases h
            · show pendingOf N T (i + 1) false =
                (if s.spawnedCover = true then ([] : List Event)
                  else [Event.spawnCover]) ++ pendingOf N T (i + 1) false
              rw [if_pos hc, List.nil_append]
            · intro h; cases h
            · intro h; cases h
            · intro h; cases h
            · intro j hj m hm
              rcases Nat.lt_or_ge j i with hji | hji
              · exact barrier j hji m hm
              · have hje : j = i := by omega
                rw [hje] at hm
                rcases hinfo with ⟨hw, hdvd⟩ | ⟨hw, hnd⟩
                · exact wFin hw m (div_lt_of_div_lt hm)
                · by_cases hi0 : i = 0
                  · subst hi0
                    rw [Nat.zero_div] at hm
                    exact absurd hm (Nat.not_lt_zero _)
                  · have hndvd : ¬ T ∣ i := fun hdv => hnd ⟨hdv, by omega⟩
                    rw [div_pred_of_not_dvd (by omega) hndvd] at hm
                    exact barrier (i - 1) (by omega) m hm
            · intro j hj hnf
              show (i + 1 - 1) / T ≤ j / T
              rw [Nat.add_sub_cancel]
              rcases hinfo with ⟨hw, hdvd⟩ | ⟨hw, hnd⟩
              · exact absurd (wFin hw j ((spawnedIff j).mp (startedSub j hj))) hnf
              · have htb := topbatch j hj hnf
                by_cases hi0 : i = 0
                · subst hi0; simp
                · have hndvd : ¬ T ∣ i := fun hdv => hnd ⟨hdv, by omega⟩
                  rw [div_pred_of_not_dvd (by omega) hndvd]
                  exact htb
          · rw [if_neg hik] at hstep
            cases hstep
        · simp [step, pendingShape, hwd] at hstep
      · rw [if_neg hc] at pendingShape
        simp [step, pendingShape] at hstep
  | waitDone =>
      by_cases hc : s.spawnedCover = true
      · rw [if_pos hc, List.nil_append] at pendingShape
        rcases pendingOf_shape N T k hT w kLe wDiv with
          ⟨hnil, -⟩ | ⟨-, -, hsp⟩ | ⟨hw, hD, hwd⟩
        · simp [step, pendingShape, hnil] at hstep
        · simp [step, pendingShape, hsp] at hstep
        · simp only [step, pendingShape, hwd] at hstep
          by_cases hG : (∀ j ∈ s.spawnedItems, j ∈ s.finishedItems) ∧
              (s.spawnedCover = true → s.finishedCover = true)
          · rw [if_pos hG] at hstep
            obtain rfl := Option.some.inj hstep
            refine ⟨k, true, kLe, spawnedIff, startedSub, finishedSub,
              startedNodup, ?_, ?_, fun _ => hD, ?_, fun _ => hG.2 hc,
              barrier, topbatch⟩
            · intro h; rw [hc] at h; cases h
            · show pendingOf N T k true =
                (if s.spawnedCover = true then ([] : List Event)
                  else [Event.spawnCover]) ++ pendingOf N T k true
              rw [if_pos hc, List.nil_append]
            · intro _ m hm
              exact hG.1 m ((spawnedIff m).mpr hm)
          · rw [if_neg hG] at hstep
            cases hstep
      · rw [if_neg hc] at pendingShape
        simp [step, pendingShape] at hstep
  | startCover =>
      simp only [step] at hstep
      by_cases hP : s.spawnedCover = true ∧ s.startedCover = false
      · rw [if_pos hP] at hstep
        obtain rfl := Option.some.inj hstep
        exact ⟨k, w, kLe, spawnedIff, startedSub, finishedSub, startedNodup,
          coverShape, pendingShape, wDiv, wFin, wCover, barrier, topbatch⟩
      · rw [if_neg hP] at hstep
        cases hstep
  | start i =>
      simp only [step] at hstep
      by_cases hP : i ∈ s.spawnedItems ∧ ¬ i ∈ s.startedItems
      · rw [if_pos hP] at hstep
        obtain rfl := Option.some.inj hstep
        refine ⟨k, w, kLe, spawnedIff, ?_, ?_, ?_, coverShape, pendingShape,
          wDiv, wFin, wCover, barrier, ?_⟩
        · intro j hj
          rcases List.mem_cons.mp hj with hj1 | hj2
          · subst hj1; exact hP.1
          · exact startedSub j hj2
        · intro j hj
          exact List.mem_cons_of_mem _ (finishedSub j hj)
        · exact List.nodup_cons.mpr ⟨hP.2, startedNodup⟩
        · intro j hj hnf
          rcases List.mem_cons.mp hj with hj1 | hj2
          · subst hj1
            have hik : j < k := (spawnedIff j).mp hP.1
            by_contra hlt
            have hjf : j ∈ s.finishedItems :=
              barrier (k - 1) (by omega) j (by omega)
            exact hP.2 (finishedSub j hjf)
          · exact topbatch j hj2 hnf
      · rw [if_neg hP] at hstep
        cases hstep
  | finishCover =>
      simp only [step] at hstep
      by_cases hP : s.startedCover = true ∧ s.finishedCover = false
      · rw [if_pos hP] at hstep
        obtain rfl := Option.some.inj hstep
        exact ⟨k, w, kLe, spawnedIff, startedSub, finishedSub, startedNodup,
          coverShape, pendingShape, wDiv, wFin, fun _ => rfl, barrier, topbatch⟩
      · rw [if_neg hP] at hstep
        cases hstep
  | finish i =>
      simp only [step] at hstep
      by_cases hP : i ∈ s.startedItems ∧ ¬ i ∈ s.finishedItems
      · rw [if_pos hP] at hstep
        obtain rfl := Option.some.inj hstep
        refine ⟨k, w, kLe, spawnedIff, startedSub, ?_, startedNodup,
          coverShape, pendingShape, wDiv, ?_, wCover, ?_, ?_⟩
        · intro j hj
          rcases List.mem_cons.mp hj with hj1 | hj2
          · subst hj1; exact hP.1
          · exact finishedSub j hj2
        · intro hw m hm
          exact List.mem_cons_of_mem _ (wFin hw m hm)
        · intro j hj m hm
          exact List.mem_cons_of_mem _ (barrier j hj m hm)
        · intro j hj hnf
          exact topbatch j hj (fun hf => hnf (List.mem_cons_of_mem _ hf))
      · rw [if_neg hP] at hstep
        cases hstep

/-- The reachability invariant propagates along any trace. -/
theorem runTrace_inv {N T : Nat} (hT : 1 ≤ T) :
    ∀ (tr : List Event) (k : Nat) (w : Bool) (s s' : SchedState),
      InvAt N T k w s → runTrace s tr = some s' →
        ∃ k' w', InvAt N T k' w' s' := by
  intro tr
  induction tr with
  | nil =>
      intro k w s s' hinv hrun
      obtain rfl : s = s' := Option.some.inj hrun
      exact ⟨k, w, hinv⟩
  | cons e tr ih =>
      intro k w s s' hinv hrun
      simp only [runTrace] at hrun
      cases hstep : step s e with
      | none => rw [hstep] at hrun; cases hrun
      | some s1 =>
          rw [hstep] at hrun
          obtain ⟨k1, w1, hinv1⟩ := step_inv hT hinv hstep
          exact ih k1 w1 s1 s' hinv1 hrun

/-- The invariant holds at the entry of `Process`. -/
theorem initState_inv (N T : Nat) : InvAt N T 0 false (initState N T) := by
  refine ⟨Nat.zero_le N, ?_, ?_, ?_, ?_, ?_, ?_, ?_, ?_, ?_, ?_, ?_⟩
  · intro j; simp [initState]
  · intro j hj; simp [initState] at hj
  · intro j hj; simp [initState] at hj
  · simp [initState]
  · intro _; exact ⟨rfl, rfl⟩
  · simp [initState, processActions, pendingOf]
  · intro h; cases h
  · intro h; cases h
  · intro h; cases h
  · intro j hj; omega
  · intro j hj; simp [initState] at hj

/-- A duplicate-free list of naturals contained in a window of width `T`
has at most `T` elements. -/
theorem length_le_of_nodup_of_mem_Ico (l : List Nat) (hnd : l.Nodup) (a T : Nat)
    (h : ∀ j ∈ l, a ≤ j ∧ j < a + T) : l.length ≤ T := by
  have hsub : l.toFinset ⊆ Finset.Ico a (a + T) := by
    intro x hx
    rw [List.mem_toFinset] at hx
    rw [Finset.mem_Ico]
    exact h x hx
  have hcard := Finset.card_le_card hsub
  rw [List.toFinset_card_of_nodup hnd] at hcard
  simpa [Nat.card_Ico] using hcard

/-- C2: in every reachable state of a `Process` run with thread limit
`T ≥ 1`, the batch barrier holds — an item goroutine can only have started
if every item of every earlier batch has already signaled completion — and
at most `T` item goroutines are in flight. -/
theorem c2_batch_barrier (N T : Nat) (tr : List Event) (s : SchedState)
    (hT : 1 ≤ T) (hrun : runTrace (initState N T) tr = some s) :
    barrierOK T s ∧ inFlight s ≤ T := by
  obtain ⟨k, w, hinv⟩ :=
    runTrace_inv hT tr 0 false (initState N T) s (initState_inv N T) hrun
  constructor
  · intro j hj m hmj hdiv
    have hjk : j < k := (hinv.spawnedIff j).mp (hinv.startedSub j hj)
    exact hinv.barrier j hjk m hdiv
  · unfold inFlight
    apply length_le_of_nodup_of_mem_Ico _ (hinv.startedNodup.filter _)
      (((k - 1) / T) * T) T
    intro j hjf
    rw [List.mem_filter] at hjf
    obtain ⟨hjs, hjd⟩ := hjf
    have hjnf : ¬ j ∈ s.finishedItems := of_decide_eq_true hjd
    have hjk : j < k := (hinv.spawnedIff j).mp (hinv.startedSub j hjs)
    have htb : (k - 1) / T ≤ j / T := hinv.topbatch j hjs hjnf
    have hjT : j / T ≤ (k - 1) / T := Nat.div_le_div_right (by omega)
    have hEq : j / T = (k - 1) / T := by omega
    constructor
    · calc (k - 1) / T * T = (j / T) * T := by rw [hEq]
        _ ≤ j := Nat.div_mul_le_self j T
    · have hlt : j / T < (k - 1) / T + 1 := by omega
      have := (Nat.div_lt_iff_lt_mul (by omega : 0 < T)).mp hlt
      calc j < ((k - 1) / T + 1) * T := this
        _ = (k - 1) / T * T + T := by ring

/-- Witness for C2: a concrete four-event run of `Process` with `N = 2`,
`T = 1`, evaluated on the resulting state. -/
theorem c2_witness :
    1 ≤ 1 ∧
    (barrierOK 1
      { pending := [Event.waitDone, Event.spawn 1, Event.waitDone]
        spawnedItems := [0]
        spawnedCover := true
        startedItems := [0]
        startedCover := true
        finishedItems := []
        finishedCover := false } ∧
    inFlight
      { pending := [Event.waitDone, Event.spawn 1, Event.waitDone]
        spawnedItems := [0]
        spawnedCover := true
        startedItems := [0]
        startedCover := true
        finishedItems := []
        finishedCover := false } ≤ 1) :=
  ⟨by decide,
    c2_batch_barrier 2 1
      [Event.spawnCover, Event.spawn 0, Event.startCover, Event.start 0] _
      (by decide) (by decide)⟩

/-- A reachable state with no pending scheduler operation is one in which
`Process` has returned; when the feed is non-empty every `Wait` guard has
forced the cover goroutine and every item goroutine to have finished. -/
theorem complete_of_inv {N T k : Nat} {w : Bool} {s : SchedState} (hT : 1 ≤ T)
    (hN : 1 ≤ N) (hinv : InvAt N T k w s) (hp : s.pending = []) :
    s.finishedCover = true ∧ ∀ m, m < N → m ∈ s.finishedItems := by
  have hps := hinv.pendingShape
  by_cases hc : s.spawnedCover = true
  · rw [if_pos hc, List.nil_append, hp] at hps
    cases w with
    | true =>
        have e1 : pendingOf N T k true = loopActions T (N - k) k 0 := by
          simp [pendingOf]
        rw [e1] at hps
        have hz := (loopActions_eq_nil_iff T (N - k) k 0).mp hps.symm
        have hkN : k = N := by have := hinv.kLe; omega
        subst hkN
        exact ⟨hinv.wCover rfl, fun m hm => hinv.wFin rfl m (by omega)⟩
    | false =>
        by_cases hd : T ∣ k ∧ 0 < k
        · have e1 : pendingOf N T k false =
              Event.waitDone :: loopActions T (N - k) k 0 := by
            simp [pendingOf, hd]
          rw [e1] at hps
          cases hps
        · have e1 : pendingOf N T k false = loopActions T (N - k) k (k % T) := by
            simp [pendingOf, hd]
          rw [e1] at hps
          have hz := (loopActions_eq_nil_iff T (N - k) k (k % T)).mp hps.symm
          have hkN : k = N := by have := hinv.kLe; omega
          have hdvd : T ∣ k := Nat.dvd_of_mod_eq_zero hz.2
          have hk0 : k = 0 := by
            by_contra hne
            exact hd ⟨hdvd, by omega⟩
          omega
  · rw [if_neg hc, hp] at hps
    cases hps

/-- C3 (amended: `N ≥ 1`): the cover download is spawned as an independent
task before any item is spawned; it may run concurrently with the first
batch (a valid trace reaches a state where the cover goroutine and item 0
are both in flight); and whenever `Process` has consumed all its scheduler
operations on a non-empty feed, the cover task and every item task have
finished. -/
theorem c3_cover_task (N T : Nat) (hT : 1 ≤ T) (hN : 1 ≤ N) :
    (processActions N T).head? = some Event.spawnCover ∧
    (∃ tr s, runTrace (initState N T) tr = some s ∧ s.startedCover = true ∧
      s.finishedCover = false ∧ 0 ∈ s.startedItems) ∧
    (∀ tr s, runTrace (initState N T) tr = some s → s.pending = [] →
      s.finishedCover = true ∧ ∀ m, m < N → m ∈ s.finishedItems) := by
  obtain ⟨n, rfl⟩ : ∃ n, N = n + 1 := ⟨N - 1, by omega⟩
  refine ⟨rfl, ?_, ?_⟩
  · exact ⟨[Event.spawnCover, Event.spawn 0, Event.startCover, Event.start 0],
      { pending := if T ≤ 0 + 1 then Event.waitDone :: loopActions T n (0 + 1) 0
          else loopActions T n (0 + 1) (0 + 1)
        spawnedItems := [0]
        spawnedCover := true
        startedItems := [0]
        startedCover := true
        finishedItems := []
        finishedCover := false },
      rfl, rfl, rfl, by simp⟩
  · intro tr s hrun hp
    obtain ⟨k, w, hinv⟩ :=
      runTrace_inv hT tr 0 false (initState (n + 1) T) s
        (initState_inv (n + 1) T) hrun
    exact complete_of_inv hT hN hinv hp

/-- Witness for C3 at `N = 1`, `T = 1`. -/
theorem c3_witness :
    (1 ≤ 1 ∧ 1 ≤ 1) ∧
    ((processActions 1 1).head? = some Event.spawnCover ∧
    (∃ tr s, runTrace (initState 1 1) tr = some s ∧ s.startedCover = true ∧
      s.finishedCover = false ∧ 0 ∈ s.startedItems) ∧
    (∀ tr s, runTrace (initState 1 1) tr = some s → s.pending = [] →
      s.finishedCover = true ∧ ∀ m, m < 1 → m ∈ s.finishedItems)) :=
  ⟨⟨by decide, by decide⟩, c3_cover_task 1 1 (by decide) (by decide)⟩

/-- C3 counterexample (the claim as stated, with "for every item count
N ≥ 0", is false at `N = 0`): on an empty feed `Process` performs no
`Wait` at all, so it can return — all scheduler operations consumed — while
the cover goroutine has neither started nor finished. -/
theorem c3_counterexample :
    (runTrace (initState 0 1) [Event.spawnCover]).map
        (fun s => (s.pending.isEmpty, s.startedCover, s.finishedCover)) =
      some (true, false, false) := by
  decide

theorem downloadFile_statDlInc (env : DlEnv) :
    ((downloadFile env).err = none → (downloadFile env).statDlInc = 1) ∧
    (∀ e, (downloadFile env).err = some e → (downloadFile env).statDlInc = 0) := by
  unfold downloadFile
  by_cases h1 : env.createOk = false <;> by_cases h2 : env.getOk = false <;>
    by_cases h3 : env.copyOk = false <;> simp [h1, h2, h3]

theorem downloadFile_inc_le_one (env : DlEnv) : (downloadFile env).statDlInc ≤ 1 := by
  unfold downloadFile
  by_cases h1 : env.createOk = false <;> by_cases h2 : env.getOk = false <;>
    by_cases h3 : env.copyOk = false <;> simp [h1, h2, h3]

/-- Per-item counter accounting: a non-panicking worker invocation
increments exactly one of `statProcess`/`statFail` — none at all when the
item is skipped — and increments `statDl` at most that much. -/
theorem worker_counters (item : Item) (env : WorkerEnv) (r : WorkerResult)
    (h : worker item env = some r) :
    (r.counters.statProcess + r.counters.statFail
      = if isSkipped (item, env) then 0 else 1) ∧
    r.counters.statDl ≤ r.counters.statProcess + r.counters.statFail := by
  cases henc : item.enclosures with
  | nil => simp [worker, henc] at h
  | cons enc0 tl =>
      have hsk : isSkipped (item, env) = (enc0.length.length == 0) := by
        simp [isSkipped, henc]
      simp only [worker, henc] at h
      by_cases hlen : enc0.length.length = 0
      · rw [if_pos hlen] at h
        obtain rfl := Option.some.inj h
        simp [hsk, hlen]
      · rw [if_neg hlen] at h
        have hskf : isSkipped (item, env) = false := by
          rw [hsk]; simpa using hlen
        by_cases hfe : env.fileExists = false
        · rw [if_pos hfe] at h
          cases hderr : (downloadFile env.dl).err with
          | some e =>
              rw [hderr] at h
              obtain rfl := Option.some.inj h
              refine ⟨by simp [hskf], ?_⟩
              simp [(downloadFile_statDlInc env.dl).2 e hderr]
          | none =>
              rw [hderr] at h
              by_cases hto : env.tagOpenOk = false
              · rw [if_pos hto] at h
                obtain rfl := Option.some.inj h
                refine ⟨by simp [hskf], ?_⟩
                simp [(downloadFile_statDlInc env.dl).1 hderr]
              · rw [if_neg hto] at h
                obtain rfl := Option.some.inj h
                refine ⟨by simp [hskf], ?_⟩
                simp [(downloadFile_statDlInc env.dl).1 hderr]
        · rw [if_neg hfe] at h
          by_cases hto : env.tagOpenOk = false
          · rw [if_pos hto] at h
            obtain rfl := Option.some.inj h
            exact ⟨by simp [hskf], by simp⟩
          · rw [if_neg hto] at h
            obtain rfl := Option.some.inj h
            exact ⟨by simp [hskf], by simp⟩

/-- C4 (amended): after a run over a feed of `K` items of which `M` are
skipped (empty enclosure-length field, no counter updated), the processed
and failed counters sum to `K - M + 1` — the extra 1 being the cover task,
which unconditionally increments the processed counter — and the
downloaded counter is at most processed + failed. -/
theorem c4_counter_consistency (cover : DlEnv) (items : List (Item × WorkerEnv))
    (c : Counters) (h : runCounters cover items = some c) :
    c.statProcess + c.statFail
      = (items.length - (items.filter isSkipped).length) + 1 ∧
    c.statDl ≤ c.statProcess + c.statFail := by
  induction items generalizing c with
  | nil =>
      simp only [runCounters] at h
      obtain rfl := Option.some.inj h
      refine ⟨by simp [coverTask], ?_⟩
      simpa [coverTask] using downloadFile_inc_le_one cover
  | cons p rest ih =>
      simp only [runCounters] at h
      cases hw : worker p.1 p.2 with
      | none => rw [hw] at h; cases h
      | some r =>
          cases hr : runCounters cover rest with
          | none => rw [hw, hr] at h; cases h
          | some cr =>
              rw [hw, hr] at h
              obtain rfl := Option.some.inj h
              obtain ⟨h1, h2⟩ := worker_counters p.1 p.2 r hw
              obtain ⟨ih1, ih2⟩ := ih cr hr
              have hle : (rest.filter isSkipped).length ≤ rest.length :=
                List.length_filter_le _ _
              constructor
              · by_cases hsk : isSkipped p = true
                · simp only [hsk, if_true] at h1
                  simp [addCounters, List.filter_cons, hsk]
                  omega
                · have hskf : isSkipped p = false := by simpa using hsk
                  simp only [hskf, Bool.false_eq_true, if_false] at h1
                  simp [addCounters, List.filter_cons, hskf]
                  omega
              · simp only [addCounters]
                omega

/-- C4 counterexample (the claim as stated is false): a run with `K = 2`
items, `M = 0` skipped, where the cover download fails and both items
download successfully but fail at `id3.Open`, ends with downloaded = 2,
processed = 1, failed = 2; so processed + failed = 3 ≠ K - M = 2, and
downloaded = 2 exceeds processed = 1. -/
theorem c4_counterexample :
    runCounters dlEnvGetFail [(itemCex, wenvTagFail), (itemCex, wenvTagFail)]
      = some { statDl := 2, statProcess := 1, statFail := 2 } ∧
    ([(itemCex, wenvTagFail), (itemCex, wenvTagFail)] :
      List (Item × WorkerEnv)).length = 2 ∧
    ([(itemCex, wenvTagFail), (itemCex, wenvTagFail)].filter isSkipped).length
      = 0 ∧
    ¬ ((1 : Nat) + 2 = 2 - 0) ∧ ¬ ((2 : Nat) ≤ 1) := by
  refine ⟨by decide, by decide, by decide, by decide, by decide⟩

/-- Witness for C4: the amended statement evaluated on the counterexample
feed. -/
theorem c4_witness :
    runCounters dlEnvGetFail [(itemCex, wenvTagFail), (itemCex, wenvTagFail)]
        = some { statDl := 2, statProcess := 1, statFail := 2 } ∧
    ((1 : Nat) + 2
      = (([(itemCex, wenvTagFail), (itemCex, wenvTagFail)] :
          List (Item × WorkerEnv)).length
        - ([(itemCex, wenvTagFail), (itemCex, wenvTagFail)].filter
            isSkipped).length) + 1 ∧
      (2 : Nat) ≤ 1 + 2) := by
  have h : runCounters dlEnvGetFail [(itemCex, wenvTagFail), (itemCex, wenvTagFail)]
      = some { statDl := 2, statProcess := 1, statFail := 2 } := by decide
  exact ⟨h, c4_counter_consistency dlEnvGetFail _ _ h⟩

/-- C5 (amended: restricted to dispatched items, i.e. those with a
non-empty enclosure length field): when the destination file already
exists, the worker does not invoke `downloadFile`, yet still attempts the
`id3.Open` tag pass, and re-tags the file whenever the open succeeds. -/
theorem c5_skip_cache (item : Item) (env : WorkerEnv) (enc0 : Enclosure)
    (tl : List Enclosure) (henc : item.enclosures = enc0 :: tl)
    (hlen : enc0.length.length ≠ 0) (hfe : env.fileExists = true) :
    (worker item env).isSome = true ∧
    ∀ r, worker item env = some r →
      r.downloadCalled = false ∧ r.tagOpenCalled = true ∧
      (env.tagOpenOk = true → r.tagsWritten = true) := by
  have hfe' : ¬ env.fileExists = false := by simp [hfe]
  simp only [worker, henc, if_neg hlen, if_neg hfe']
  by_cases hto : env.tagOpenOk = false
  · rw [if_pos hto]
    refine ⟨rfl, ?_⟩
    intro r hr
    obtain rfl := Option.some.inj hr
    refine ⟨rfl, rfl, ?_⟩
    intro h; rw [h] at hto; cases hto
  · rw [if_neg hto]
    refine ⟨rfl, ?_⟩
    intro r hr
    obtain rfl := Option.some.inj hr
    exact ⟨rfl, rfl, fun _ => rfl⟩

/-- Witness for C5: a concrete dispatched item with its file already
present is not re-downloaded but is re-tagged. -/
theorem c5_witness :
    itemCex.enclosures = { url := "u", length := "1" } :: [] ∧
    ("1" : String).length ≠ 0 ∧ wenvExists.fileExists = true ∧
    ((worker itemCex wenvExists).isSome = true ∧
    ∀ r, worker itemCex wenvExists = some r →
      r.downloadCalled = false ∧ r.tagOpenCalled = true ∧
      (wenvExists.tagOpenOk = true → r.tagsWritten = true)) :=
  ⟨by decide, by decide, by decide,
    c5_skip_cache itemCex wenvExists { url := "u", length := "1" } []
      (by decide) (by decide) (by decide)⟩

/-- C5 counterexample (the claim as stated, over every item whose file
exists, is false): an item with an empty enclosure-length field whose
destination file exists is returned from the worker before tagging, so
tagging IS skipped for it, not only the download. -/
theorem c5_counterexample :
    (worker itemEmptyLen wenvExists).map
        (fun r => (r.downloadCalled, r.tagOpenCalled, r.tagsWritten)) =
      some (false, false, false) := by
  decide

/-- C6 (amended): a download error or an `id3.Open` error is logged,
counted as a failure, and the worker returns normally (no error channel
reaches the scheduler); the error of the deferred `tag.Close()` —
discarded by `_ = tag.Close()` — has no effect on the result at all, so a
tag-close failure is neither logged nor counted and the item still counts
as processed. -/
theorem c6_error_boundary (item : Item) (env : WorkerEnv) (enc0 : Enclosure)
    (tl : List Enclosure) (r : WorkerResult) (henc : item.enclosures = enc0 :: tl)
    (hlen : enc0.length.length ≠ 0) (hr : worker item env = some r) :
    (env.fileExists = false → ∀ e, (downloadFile env.dl).err = some e →
      r.counters.statFail = 1 ∧ r.counters.statProcess = 0 ∧
      r.logs = [WorkerLog.downloadErr e]) ∧
    ((env.fileExists = true ∨ (downloadFile env.dl).err = none) →
      env.tagOpenOk = false →
      r.counters.statFail = 1 ∧ r.counters.statProcess = 0 ∧
      r.logs = [WorkerLog.tagOpenErr]) ∧
    worker item env = worker item { env with tagCloseOk := true } := by
  refine ⟨?_, ?_, rfl⟩
  · intro hfe e herr
    simp only [worker, henc, if_neg hlen, if_pos hfe, herr] at hr
    obtain rfl := Option.some.inj hr
    exact ⟨rfl, rfl, rfl⟩
  · intro hok hto
    rcases hok with hfe | herr
    · have hfe' : ¬ env.fileExists = false := by simp [hfe]
      simp only [worker, henc, if_neg hlen, if_neg hfe', if_pos hto] at hr
      obtain rfl := Option.some.inj hr
      exact ⟨rfl, rfl, rfl⟩
    · by_cases hfe : env.fileExists = false
      · simp only [worker, henc, if_neg hlen, if_pos hfe, herr, if_pos hto] at hr
        obtain rfl := Option.some.inj hr
        exact ⟨rfl, rfl, rfl⟩
      · simp only [worker, henc, if_neg hlen, if_neg hfe, if_pos hto] at hr
        obtain rfl := Option.some.inj hr
        exact ⟨rfl, rfl, rfl⟩

/-- Witness for C6 on a concrete item whose download fails. -/
theorem c6_witness :
    worker itemCex
        { fileExists := false, dl := dlEnvGetFail, tagOpenOk := true,
          tagCloseOk := true, publishedTime := none }
      = some { counters := { statDl := 0, statProcess := 0, statFail := 1 },
               downloadCalled := true, tagOpenCalled := false,
               tagsWritten := false, taggedTitle := none, taggedYear := none,
               logs := [WorkerLog.downloadErr DlError.getFailed] } ∧
    ({ fileExists := false, dl := dlEnvGetFail, tagOpenOk := true,
        tagCloseOk := true, publishedTime := none } : WorkerEnv).fileExists
      = false ∧
    (downloadFile dlEnvGetFail).err = some DlError.getFailed ∧
    ((1 : Nat) = 1 ∧ (0 : Nat) = 0 ∧
      ([WorkerLog.downloadErr DlError.getFailed] : List WorkerLog)
        = [WorkerLog.downloadErr DlError.getFailed]) := by
  have h : worker itemCex
      { fileExists := false, dl := dlEnvGetFail, tagOpenOk := true,
        tagCloseOk := true, publishedTime := none }
      = some { counters := { statDl := 0, statProcess := 0, statFail := 1 },
               downloadCalled := true, tagOpenCalled := false,
               tagsWritten := false, taggedTitle := none, taggedYear := none,
               logs := [WorkerLog.downloadErr DlError.getFailed] } := by decide
  refine ⟨h, by decide, by decide, ?_⟩
  exact (c6_error_boundary itemCex _ { url := "u", length := "1" } [] _
    (by decide) (by decide) h).1 (by decide) DlError.getFailed (by decide)

/-- C6 counterexample (the claim as stated is false for tag-write
failures): a failing `tag.Close()` — the call that persists the tags — is
silently discarded: the failure counter stays 0, nothing is logged, and
the item is counted as processed. -/
theorem c6_counterexample :
    (worker itemCex wenvCloseFail).map
        (fun r => (r.counters.statFail, r.counters.statProcess, r.logs)) =
      some (0, 1, []) := by
  decide

/-- C7: `downloadFile` returns an error iff file creation, the network
request, or the byte copy fails; on success the download counter is
incremented exactly once, on failure not at all; the deferred `Close`
errors are only logged — they are never the returned error and do not
influence the result. -/
theorem c7_downloadFile (env : DlEnv) :
    ((downloadFile env).err.isSome ↔
      (env.createOk = false ∨ env.getOk = false ∨ env.copyOk = false)) ∧
    ((downloadFile env).err = none → (downloadFile env).statDlInc = 1) ∧
    ((downloadFile env).err.isSome → (downloadFile env).statDlInc = 0) ∧
    (∀ e, (downloadFile env).err = some e →
      e ≠ DlError.fileCloseFailed ∧ e ≠ DlError.bodyCloseFailed) ∧
    (downloadFile env).err =
      (downloadFile { env with fileCloseOk := true, bodyCloseOk := true }).err := by
  unfold downloadFile
  by_cases h1 : env.createOk = false <;> by_cases h2 : env.getOk = false <;>
    by_cases h3 : env.copyOk = false <;> simp [h1, h2, h3]

/-- Witness for C7 on the all-success environment. -/
theorem c7_witness :
    (downloadFile dlEnvOk).err = none ∧ (downloadFile dlEnvOk).statDlInc = 1 :=
  ⟨by decide, (c7_downloadFile dlEnvOk).2.1 (by decide)⟩

/-- No path separator survives the replacement performed on a matched
title. -/
theorem replace_sep_no_sep (l : List Char) :
    ¬ '/' ∈ l.map (fun c => if c == '/' then '_' else c) := by
  intro h
  rw [List.mem_map] at h
  obtain ⟨c, -, hc⟩ := h
  by_cases hcs : c = '/'
  · subst hcs; simp at hc
  · rw [if_neg (by simpa using hcs)] at hc
    exact hcs hc

/-- C8 (amended in its last part): the three parsing vectors hold; the
path-separator replacement applies to every input ON WHICH THE PATTERN
MATCHES (including the author-name fallback), e.g. "Episode 3. A/B" yields
title "A_B" — but a non-matching raw title is returned as-is. -/
theorem c8_parse_title :
    (∀ a : String, parseTitle "Episode 12. Something Great" a
      = ("12", "Something Great")) ∧
    (∀ a : String, parseTitle "NoMatchHere" a = ("", "NoMatchHere")) ∧
    parseTitle "Episode 5." "Jane Doe" = ("5", "Jane Doe") ∧
    parseTitle "Episode 3. A/B" "x" = ("3", "A_B") ∧
    (∀ t a g1 g2, findStringSubmatch t.data = some (g1, g2) →
      ¬ '/' ∈ (parseTitle t a).2.data) := by
  refine ⟨fun a => rfl, fun a => rfl, by decide, by decide, ?_⟩
  intro t a g1 g2 hm
  simp only [parseTitle, hm]
  exact replace_sep_no_sep _

/-- Witness for C8: the replacement clause applied at a concrete matching
input. -/
theorem c8_witness :
    findStringSubmatch ("Episode 3. A/B" : String).data
        = some (("3" : String).data, ("A/B" : String).data) ∧
    ¬ '/' ∈ (parseTitle "Episode 3. A/B" "x").2.data :=
  ⟨by decide, c8_parse_title.2.2.2.2 "Episode 3. A/B" "x"
    ("3" : String).data ("A/B" : String).data (by decide)⟩

/-- C8 counterexample (the "for every input" replacement clause is false
as stated): the raw title "A/B" does not match the pattern, so
`parseTitle` returns it verbatim, path separator included. -/
theorem c8_counterexample :
    parseTitle "A/B" "x" = ("", "A/B") ∧ '/' ∈ ("A/B" : String).data := by
  exact ⟨by decide, by decide⟩

/-- The worker never panics on an item with at least one enclosure. -/
theorem worker_isSome (item : Item) (env : WorkerEnv) (enc0 : Enclosure)
    (tl : List Enclosure) (henc : item.enclosures = enc0 :: tl) :
    (worker item env).isSome = true := by
  simp only [worker, henc]
  by_cases hlen : enc0.length.length = 0
  · simp [hlen]
  · rw [if_neg hlen]
    by_cases hfe : env.fileExists = false
    · rw [if_pos hfe]
      cases hderr : (downloadFile env.dl).err with
      | some e => simp
      | none =>
          by_cases hto : env.tagOpenOk = false
          · simp [hto]
          · simp [hto]
    · rw [if_neg hfe]
      by_cases hto : env.tagOpenOk = false
      · simp [hto]
      · simp [hto]

/-- C9: the worker indexes `item.Enclosures[0]` before any other check, so
it panics exactly on the items whose enclosure list is empty — an implicit
precondition the specification never states. -/
theorem c9_enclosure_panic (item : Item) (env : WorkerEnv) :
    worker item env = none ↔ item.enclosures = [] := by
  constructor
  · intro h
    cases henc : item.enclosures with
    | nil => rfl
    | cons enc0 tl =>
        have hs := worker_isSome item env enc0 tl henc
        rw [h] at hs
        cases hs
  · intro h
    simp [worker, h]

/-- Witness for C9: the panic at a concrete enclosure-less item, and the
absence of a panic at a concrete item with an enclosure. -/
theorem c9_witness :
    worker itemNoEnc wenvExists = none ∧
    ¬ worker itemCex wenvExists = none :=
  ⟨(c9_enclosure_panic _ wenvExists).mpr rfl,
    fun h => by cases (c9_enclosure_panic itemCex wenvExists).mp h⟩

/-- C10: the worker discards the error of
`time.Parse(time.RFC1123Z, item.Published)`; when the publish timestamp
does not parse, tagging still succeeds (given the tag file opens) and the
year tag silently becomes "1", the year of Go's zero time. -/
theorem c10_year_fallback (item : Item) (env : WorkerEnv) (enc0 : Enclosure)
    (tl : List Enclosure) (henc : item.enclosures = enc0 :: tl)
    (hlen : enc0.length.length ≠ 0) (hparse : env.publishedTime = none)
    (htag : ¬ env.tagOpenOk = false)
    (hok : env.fileExists = true ∨ (downloadFile env.dl).err = none) :
    ∀ r, worker item env = some r →
      r.tagsWritten = true ∧ r.taggedYear = some "1" ∧
      r.counters.statProcess = 1 ∧ r.counters.statFail = 0 := by
  intro r hr
  rcases hok with hfe | herr
  · have hfe' : ¬ env.fileExists = false := by simp [hfe]
    simp only [worker, henc, if_neg hlen, if_neg hfe', if_neg htag, hparse] at hr
    obtain rfl := Option.some.inj hr
    exact ⟨rfl, rfl, rfl, rfl⟩
  · by_cases hfe : env.fileExists = false
    · simp only [worker, henc, if_neg hlen, if_pos hfe, herr, if_neg htag,
        hparse] at hr
      obtain rfl := Option.some.inj hr
      exact ⟨rfl, rfl, rfl, rfl⟩
    · simp only [worker, henc, if_neg hlen, if_neg hfe, if_neg htag, hparse] at hr
      obtain rfl := Option.some.inj hr
      exact ⟨rfl, rfl, rfl, rfl⟩

/-- Witness for C10: a concrete item whose publish timestamp fails to
parse is still tagged, with year "1". -/
theorem c10_witness :
    worker itemCex wenvExists
      = some { counters := { statDl := 0, statProcess := 1, statFail := 0 },
               downloadCalled := false, tagOpenCalled := true,
               tagsWritten := true, taggedTitle := some "[1] A",
               taggedYear := some "1", logs := [] } ∧
    (wenvExists.publishedTime = none ∧
      ((true : Bool) = true ∧ (some "1" : Option String) = some "1")) := by
  have h : worker itemCex wenvExists
      = some { counters := { statDl := 0, statProcess := 1, statFail := 0 },
               downloadCalled := false, tagOpenCalled := true,
               tagsWritten := true, taggedTitle := some "[1] A",
               taggedYear := some "1", logs := [] } := by decide
  refine ⟨h, by decide, ?_, ?_⟩
  · exact ((c10_year_fallback itemCex wenvExists { url := "u", length := "1" }
      [] (by decide) (by decide) (by decide) (by decide)
      (Or.inl (by decide)) _ h).1 : (true : Bool) = true)
  · exact (c10_year_fallback itemCex wenvExists { url := "u", length := "1" }
      [] (by decide) (by decide) (by decide) (by decide)
      (Or.inl (by decide)) _ h).2.1

/-- Witness for C1 at `N = 5`, `T = 2`: hypotheses discharged and the
batching statement instantiated concretely. -/
theorem c1_witness :
    1 ≤ 2 ∧
    ((batches (processActions 5 2)).flatten = List.range 5 ∧
    (batches (processActions 5 2)).length = (5 + (2 - 1)) / 2 ∧
    (∀ b ∈ (batches (processActions 5 2)).dropLast, b.length = 2) ∧
    (∀ b, (batches (processActions 5 2)).getLast? = some b →
      b.length = if 5 % 2 = 0 then 2 else 5 % 2)) :=
  ⟨by decide, c1_process_batching 5 2 (by decide)⟩
